import Mathlib

/-!
Verification of the segment-overlap validator in
`frontend/src/components/DisplaySegmentsDialog/index.js` (`handleSave`).

The handler walks `display.segments` (an ordered list of
`[name, start, end, someBool]` tuples), grouping the `(start, end)` ranges by
`name` in a transient map `output`.  For each segment it first compares its
`start` against the `end` of every range already placed in the group of its name
(`if (tmpEnd >= start) overlap = true`), then pushes its own range.  Afterwards
it dispatches exactly one redux action: a snackbar notification when
`overlap` is true, otherwise `updateDisplayConfig({ id, data: segments })`.

Modelling notes:
* JS numbers are modelled as `Int` (the claims only involve integer ranges and
  order comparisons).
* The JS object `output` is modelled as a total function
  `String → List (Int × Int)` defaulting to `[]`; this combines the
  `if (!(name in output)) output[name] = []` initialisation with the lookup.
  (The model treats the object as a clean map, ignoring prototype keys.)
* The dead `if (!tmpStart) {}` statement in the source has no effect and is
  omitted.
* The dispatch side effect is modelled as the list of dispatched actions; the
  source dispatches exactly one action per save attempt.
-/

namespace SegDialog

/-- A segment tuple `[name, start, end, someBool]` as destructured in the
`forEach` of the source. -/
structure Segment where
  name : String
  start : Int
  «end» : Int
  someBool : Bool
deriving Repr, DecidableEq

/-- One iteration of the `forEach` body from the source, acting on the pair
(`overlap`, `output`): read the group for `seg.name` (empty when absent), set
`overlap` if the end of any previously placed range is `>=` the new start, then
push `(start, end)` onto the group. -/
def validateStep (st : Bool × (String → List (Int × Int))) (seg : Segment) :
    Bool × (String → List (Int × Int)) :=
  let group := st.2 seg.name
  let overlap := st.1 || group.any (fun r => decide (r.2 ≥ seg.start))
  let output := fun n =>
    if n = seg.name then group ++ [(seg.start, seg.«end»)] else st.2 n
  (overlap, output)

/-- The validation loop of `handleSave`: fold the `forEach` body over the
segment list, starting from `overlap = false` and an empty grouping map. -/
def overlapValidate (segments : List Segment) :
    Bool × (String → List (Int × Int)) :=
  segments.foldl validateStep (false, fun _ => [])

/-- The boolean `overlap` flag computed by `handleSave`. -/
def overlapOf (segments : List Segment) : Bool :=
  (overlapValidate segments).1

/-- The two redux actions `handleSave` can dispatch. -/
inductive Action where
  | showdynSnackbar (message : String)
  | updateDisplayConfig (id : String) (data : List Segment)
deriving Repr, DecidableEq

/-- The `display` prop: `{ id, config: { name }, segments }`. -/
structure Display where
  id : String
  configName : String
  segments : List Segment
deriving Repr, DecidableEq

/-- The fixed notification message of the failure branch. -/
def snackbarMessage : String := "Overlapping detected! Please Check your config"

/-- `handleSave`, modelled as the list of dispatched actions: on overlap a
single snackbar notification, otherwise a single
`updateDisplayConfig({ id: display.id, data: display.segments })`. -/
def handleSave (display : Display) : List Action :=
  if overlapOf display.segments then
    [Action.showdynSnackbar snackbarMessage]
  else
    [Action.updateDisplayConfig display.id display.segments]

/-! ### A state-passing model of the whole handler, for the frame claim

The loop in the source only assigns to the local `output` and `overlap`; the
`display` object is only read.  To make that checkable we carry the display
through the loop state. -/

/-- The mutable state visible to the `forEach` body: the display (only read),
the grouping map and the overlap flag. -/
structure SaveState where
  display : Display
  output : String → List (Int × Int)
  overlap : Bool

/-- One iteration of the `forEach` body over the full `SaveState`. -/
def handleSaveStep (st : SaveState) (seg : Segment) : SaveState :=
  let group := st.output seg.name
  { st with
    overlap := st.overlap || group.any (fun r => decide (r.2 ≥ seg.start)),
    output := fun n =>
      if n = seg.name then group ++ [(seg.start, seg.«end»)] else st.output n }

/-- Run the whole validation loop from the initial state of the handler. -/
def handleSaveRun (d : Display) : SaveState :=
  d.segments.foldl handleSaveStep
    { display := d, output := fun _ => [], overlap := false }

/-! ### Pair-scan characterisation of the validator -/

/-- `pairScan R l` is true when some earlier element `s` and later element `t`
of `l` satisfy `R s t`. -/
def pairScan {α : Type} (R : α → α → Bool) : List α → Bool
  | [] => false
  | s :: rest => rest.any (fun t => R s t) || pairScan R rest

/-- The relation the validator effectively tests on an (earlier, later) pair:
same name, and the end of the earlier segment `>=` the start of the later segment. -/
def segClash (s t : Segment) : Bool :=
  decide (s.name = t.name) && decide (s.«end» ≥ t.start)

/-- The per-name grouping map produced by processing a prefix `pre`. -/
def groupsOf (pre : List Segment) (n : String) : List (Int × Int) :=
  (pre.filter (fun s => decide (s.name = n))).map (fun s => (s.start, s.«end»))

theorem any_or_distrib {α : Type} (l : List α) (p q : α → Bool) :
    l.any (fun x => p x || q x) = (l.any p || l.any q) := by
  induction l with
  | nil => simp
  | cons a l ih =>
    simp [List.any_cons, ih]
    cases p a <;> cases q a <;> cases l.any p <;> cases l.any q <;> simp

theorem any_map_general {α β : Type} (l : List α) (f : α → β) (p : β → Bool) :
    (l.map f).any p = l.any (fun x => p (f x)) := by
  induction l with
  | nil => rfl
  | cons a l ih => simp [List.any_cons, ih]

theorem groupsOf_any (pre : List Segment) (t : Segment) :
    ((groupsOf pre t.name).any fun r => decide (r.2 ≥ t.start)) =
      pre.any (fun s => segClash s t) := by
  rw [groupsOf, any_map_general, List.any_filter]
  simp [segClash]

theorem groupsOf_snoc (pre : List Segment) (t : Segment) :
    (fun n => if n = t.name then groupsOf pre t.name ++ [(t.start, t.«end»)]
      else groupsOf pre n) = groupsOf (pre ++ [t]) := by
  funext n
  by_cases h : n = t.name
  · subst h
    simp [groupsOf, List.filter_append, List.filter_cons]
  · have hd : (decide (t.name = n)) = false := by
      simp only [decide_eq_false_iff_not]
      exact fun hc => h hc.symm
    simp [groupsOf, List.filter_append, List.filter_cons, h, hd]

theorem validateStep_groupsOf (pre : List Segment) (ov : Bool) (t : Segment) :
    validateStep (ov, groupsOf pre) t =
      (ov || pre.any (fun s => segClash s t), groupsOf (pre ++ [t])) := by
  refine Prod.ext ?_ ?_
  · show (ov || ((groupsOf pre t.name).any fun r => decide (r.2 ≥ t.start))) = _
    rw [groupsOf_any]
  · show (fun n => if n = t.name then groupsOf pre t.name ++ [(t.start, t.«end»)]
      else groupsOf pre n) = _
    rw [groupsOf_snoc]

/-- Cross-pairs between a processed prefix and the rest. -/
def crossAny (pre rest : List Segment) : Bool :=
  rest.any (fun t => pre.any (fun s => segClash s t))

theorem foldl_validateStep_fst (rest : List Segment) :
    ∀ (pre : List Segment) (ov : Bool),
      (rest.foldl validateStep (ov, groupsOf pre)).1 =
        (ov || crossAny pre rest || pairScan segClash rest) := by
  induction rest with
  | nil => intro pre ov; simp [crossAny, pairScan]
  | cons t rest ih =>
    intro pre ov
    rw [List.foldl_cons, validateStep_groupsOf, ih]
    simp only [crossAny, pairScan, List.any_cons, List.any_append,
      List.any_nil, Bool.or_false]
    rw [any_or_distrib rest (fun u => pre.any (fun s => segClash s u))
      (fun u => segClash t u)]
    simp only [Bool.or_assoc, Bool.or_comm, Bool.or_left_comm]

theorem overlapOf_eq_pairScan (segments : List Segment) :
    overlapOf segments = pairScan segClash segments := by
  have h0 : (false, fun _ : String => ([] : List (Int × Int))) =
      ((false, groupsOf []) : Bool × (String → List (Int × Int))) := rfl
  rw [overlapOf, overlapValidate, h0, foldl_validateStep_fst]
  simp [crossAny]

theorem pairScan_eq_true_iff {α : Type} (R : α → α → Bool) (l : List α) :
    pairScan R l = true ↔
      ∃ (i j : ℕ) (hi : i < l.length) (hj : j < l.length),
        i < j ∧ R l[i] l[j] = true := by
  induction l with
  | nil =>
    simp only [pairScan]
    constructor
    · intro h; cases h
    · rintro ⟨i, j, hi, _⟩; simp at hi
  | cons s rest ih =>
    simp only [pairScan, Bool.or_eq_true, List.any_eq_true]
    constructor
    · rintro (⟨t, ht, hR⟩ | hrest)
      · obtain ⟨j, hj, rfl⟩ := List.mem_iff_getElem.1 ht
        exact ⟨0, j + 1, by simp, by simpa using Nat.succ_lt_succ hj,
          Nat.succ_pos j, by simpa using hR⟩
      · obtain ⟨i, j, hi, hj, hij, hR⟩ := ih.1 hrest
        exact ⟨i + 1, j + 1, by simpa using Nat.succ_lt_succ hi,
          by simpa using Nat.succ_lt_succ hj, Nat.succ_lt_succ hij,
          by simpa using hR⟩
    · rintro ⟨i, j, hi, hj, hij, hR⟩
      cases i with
      | zero =>
        left
        cases j with
        | zero => exact absurd hij (lt_irrefl 0)
        | succ j' =>
          have hj' : j' < rest.length := by simpa using hj
          refine ⟨rest[j'], List.getElem_mem hj', ?_⟩
          simpa using hR
      | succ i' =>
        right
        cases j with
        | zero => exact absurd hij (by omega)
        | succ j' =>
          have hi' : i' < rest.length := by simpa using hi
          have hj' : j' < rest.length := by simpa using hj
          exact ih.2 ⟨i', j', hi', hj', by omega, by simpa using hR⟩

theorem segClash_eq_true_iff (s t : Segment) :
    segClash s t = true ↔ (s.name = t.name ∧ s.«end» ≥ t.start) := by
  simp [segClash]

theorem overlapOf_iff_exists_pair (segments : List Segment) :
    overlapOf segments = true ↔
      ∃ (i j : ℕ) (hi : i < segments.length) (hj : j < segments.length),
        i < j ∧ segments[i].name = segments[j].name ∧
          segments[i].«end» ≥ segments[j].start := by
  rw [overlapOf_eq_pairScan, pairScan_eq_true_iff]
  constructor
  · rintro ⟨i, j, hi, hj, hij, hR⟩
    obtain ⟨h1, h2⟩ := (segClash_eq_true_iff _ _).1 hR
    exact ⟨i, j, hi, hj, hij, h1, h2⟩
  · rintro ⟨i, j, hi, hj, hij, h1, h2⟩
    exact ⟨i, j, hi, hj, hij, (segClash_eq_true_iff _ _).2 ⟨h1, h2⟩⟩

/-- C1: the validator reports `overlap == true` iff there are positions
`i < j` holding segments of the same name with the end of segment `i`
greater than or equal to the start of segment `j`. -/
theorem overlap_iff_same_name_prior_end_ge_start (segments : List Segment) :
    overlapOf segments = true ↔
      ∃ (i j : ℕ) (hi : i < segments.length) (hj : j < segments.length),
        i < j ∧ segments[i].name = segments[j].name ∧
          segments[i].«end» ≥ segments[j].start :=
  overlapOf_iff_exists_pair segments

/-- C1 witness: the characterisation instantiated at a concrete sequence,
with the right-to-left direction discharged at indices `0 < 1`. -/
theorem overlap_iff_same_name_prior_end_ge_start_witness :
    overlapOf [⟨"b", 2, 9, true⟩, ⟨"b", 3, 11, false⟩] = true :=
  (overlap_iff_same_name_prior_end_ge_start
      [⟨"b", 2, 9, true⟩, ⟨"b", 3, 11, false⟩]).2
    ⟨0, 1, by decide, by decide, by decide, by decide, by decide⟩

/-- C4: boundary equality counts as overlap because the comparison is `>=`. -/
theorem boundary_equality_reports_true :
    overlapOf [⟨"a", 0, 5, false⟩, ⟨"a", 5, 10, false⟩] = true := by
  decide

/-- C2 counterexample: on `(10,20)` followed by `(0,5)` under the same name the
validator does NOT report `overlap == false` as claimed. -/
theorem out_of_order_disjoint_counterexample :
    overlapOf [⟨"a", 10, 20, false⟩, ⟨"a", 0, 5, false⟩] ≠ false := by
  decide

/-- C2 amended: on `(10,20)` followed by `(0,5)` under the same name the
one-directional check fires (`20 >= 0`) and the validator reports
`overlap == true`, even though the ranges are disjoint. -/
theorem out_of_order_disjoint_reports_true :
    overlapOf [⟨"a", 10, 20, false⟩, ⟨"a", 0, 5, false⟩] = true := by
  decide

theorem overlapOf_eq_false_of_nodup_names (segments : List Segment)
    (h : (segments.map Segment.name).Nodup) :
    overlapOf segments = false := by
  cases hx : overlapOf segments
  · rfl
  · exfalso
    obtain ⟨i, j, hi, hj, hij, hname, _⟩ := (overlapOf_iff_exists_pair _).1 hx
    have hi' : i < (segments.map Segment.name).length := by simpa using hi
    have hj' : j < (segments.map Segment.name).length := by simpa using hj
    have hmap : (segments.map Segment.name)[i] = (segments.map Segment.name)[j] := by
      simpa [List.getElem_map] using hname
    have := (List.Nodup.getElem_inj_iff h).1 hmap
    omega

/-- C5: when all segment names are pairwise distinct the validator reports
`overlap == false` and the store-update action is dispatched carrying the
sequence unchanged. -/
theorem distinct_names_save_unchanged (d : Display)
    (h : (d.segments.map Segment.name).Nodup) :
    overlapOf d.segments = false ∧
      handleSave d = [Action.updateDisplayConfig d.id d.segments] := by
  have hov := overlapOf_eq_false_of_nodup_names d.segments h
  exact ⟨hov, by simp [handleSave, hov]⟩

/-- C5 witness: a two-segment display with distinct names saves unchanged. -/
theorem distinct_names_save_unchanged_witness :
    overlapOf [⟨"a", 0, 5, false⟩, ⟨"b", 0, 5, true⟩] = false ∧
      handleSave ⟨"d5", "cfg", [⟨"a", 0, 5, false⟩, ⟨"b", 0, 5, true⟩]⟩ =
        [Action.updateDisplayConfig "d5" [⟨"a", 0, 5, false⟩, ⟨"b", 0, 5, true⟩]] :=
  distinct_names_save_unchanged ⟨"d5", "cfg", [⟨"a", 0, 5, false⟩, ⟨"b", 0, 5, true⟩]⟩
    (by decide)

/-- C7: on the empty segment sequence the validator reports `overlap == false`
and dispatches the store-update action carrying the empty sequence. -/
theorem empty_sequence_saves_empty (d : Display) (h : d.segments = []) :
    overlapOf d.segments = false ∧
      handleSave d = [Action.updateDisplayConfig d.id []] := by
  have hov : overlapOf d.segments = false := by rw [h]; rfl
  have hov0 : overlapOf ([] : List Segment) = false := rfl
  exact ⟨hov, by simp [handleSave, h, hov0]⟩

/-- C7 witness: the empty display saves the empty sequence. -/
theorem empty_sequence_saves_empty_witness :
    overlapOf ([] : List Segment) = false ∧
      handleSave ⟨"d7", "cfg", []⟩ = [Action.updateDisplayConfig "d7" []] :=
  empty_sequence_saves_empty ⟨"d7", "cfg", []⟩ rfl

/-- C3: every save attempt dispatches exactly one action; on overlap the
notification is dispatched and the store update never is, otherwise the store
update is dispatched and the notification never is. -/
theorem save_dispatches_exactly_one_action (d : Display) :
    (handleSave d).length = 1 ∧
    (overlapOf d.segments = true →
      Action.showdynSnackbar snackbarMessage ∈ handleSave d ∧
      ∀ i dt, Action.updateDisplayConfig i dt ∉ handleSave d) ∧
    (overlapOf d.segments = false →
      Action.updateDisplayConfig d.id d.segments ∈ handleSave d ∧
      ∀ m, Action.showdynSnackbar m ∉ handleSave d) := by
  cases h : overlapOf d.segments <;> simp [handleSave, h]

/-- C3 witness: applied to a concrete non-overlapping display, discharging the
`overlap == false` hypothesis. -/
theorem save_dispatches_exactly_one_action_witness :
    Action.updateDisplayConfig "d3" [] ∈ handleSave ⟨"d3", "cfg", []⟩ ∧
      ∀ m, Action.showdynSnackbar m ∉ handleSave ⟨"d3", "cfg", []⟩ :=
  (save_dispatches_exactly_one_action ⟨"d3", "cfg", []⟩).2.2 rfl

/-- C8: on success the dispatched action carries exactly
`{ id: display.id, data: display.segments }`; on failure the dispatched
notification carries the fixed message string. -/
theorem save_action_payloads (d : Display) :
    (overlapOf d.segments = false →
      handleSave d = [Action.updateDisplayConfig d.id d.segments]) ∧
    (overlapOf d.segments = true →
      handleSave d =
        [Action.showdynSnackbar "Overlapping detected! Please Check your config"]) := by
  constructor <;> intro h <;> simp [handleSave, h, snackbarMessage]

/-- C8 witness: both branches applied at concrete displays. -/
theorem save_action_payloads_witness :
    handleSave ⟨"d8", "cfg", [⟨"a", 0, 5, false⟩]⟩ =
      [Action.updateDisplayConfig "d8" [⟨"a", 0, 5, false⟩]] ∧
    handleSave ⟨"d8b", "cfg", [⟨"a", 0, 5, false⟩, ⟨"a", 5, 10, true⟩]⟩ =
      [Action.showdynSnackbar "Overlapping detected! Please Check your config"] :=
  ⟨(save_action_payloads ⟨"d8", "cfg", [⟨"a", 0, 5, false⟩]⟩).1 (by decide),
   (save_action_payloads ⟨"d8b", "cfg", [⟨"a", 0, 5, false⟩, ⟨"a", 5, 10, true⟩]⟩).2
     (by decide)⟩

theorem foldl_handleSaveStep_display (l : List Segment) :
    ∀ st : SaveState, (l.foldl handleSaveStep st).display = st.display := by
  induction l with
  | nil => intro st; rfl
  | cons s l ih => intro st; rw [List.foldl_cons, ih]; rfl

/-- C10: the save handler never mutates its input; after the whole loop the
display and its segment sequence are unchanged. -/
theorem save_does_not_mutate_display (d : Display) :
    (handleSaveRun d).display = d ∧
      (handleSaveRun d).display.segments = d.segments := by
  have h1 : (handleSaveRun d).display = d := by
    rw [handleSaveRun, foldl_handleSaveStep_display]
  exact ⟨h1, by rw [h1]⟩

/-! ### Per-name decomposition (C6) -/

theorem pairScan_sublist {α : Type} (R : α → α → Bool) {l₁ l₂ : List α}
    (h : List.Sublist l₁ l₂) : pairScan R l₁ = true → pairScan R l₂ = true := by
  induction h with
  | slnil => exact fun h => h
  | cons a h ih =>
    intro hp
    simp only [pairScan, Bool.or_eq_true]
    exact Or.inr (ih hp)
  | cons₂ a h ih =>
    intro hp
    simp only [pairScan, Bool.or_eq_true, List.any_eq_true] at hp ⊢
    rcases hp with ⟨t, ht, hR⟩ | hp
    · exact Or.inl ⟨t, h.subset ht, hR⟩
    · exact Or.inr (ih hp)

theorem pairScan_cons_of_mem {α : Type} (R : α → α → Bool) (s t : α)
    (l : List α) (ht : t ∈ l) (hR : R s t = true) :
    pairScan R (s :: l) = true := by
  simp only [pairScan, Bool.or_eq_true, List.any_eq_true]
  exact Or.inl ⟨t, ht, hR⟩

theorem exists_split_of_lt {α : Type} (l : List α) (i j : ℕ)
    (hi : i < l.length) (hj : j < l.length) (hij : i < j) :
    ∃ l₁ l₂ l₃, l = l₁ ++ l[i] :: (l₂ ++ l[j] :: l₃) := by
  refine ⟨l.take i, (l.drop (i + 1)).take (j - (i + 1)), l.drop (j + 1), ?_⟩
  conv_lhs => rw [← List.take_append_drop i l]
  congr 1
  rw [List.drop_eq_getElem_cons hi]
  congr 1
  conv_lhs => rw [← List.take_append_drop (j - (i + 1)) (l.drop (i + 1))]
  congr 1
  rw [List.drop_drop]
  have hjj : i + 1 + (j - (i + 1)) = j := by omega
  rw [hjj, List.drop_eq_getElem_cons hj]

theorem overlap_iff_exists_split (segments : List Segment) :
    overlapOf segments = true ↔
      ∃ l₁ s₁ l₂ s₂ l₃, segments = l₁ ++ s₁ :: (l₂ ++ s₂ :: l₃) ∧
        segClash s₁ s₂ = true := by
  constructor
  · intro h
    rw [overlapOf_eq_pairScan, pairScan_eq_true_iff] at h
    obtain ⟨i, j, hi, hj, hij, hR⟩ := h
    obtain ⟨l₁, l₂, l₃, hsplit⟩ := exists_split_of_lt segments i j hi hj hij
    exact ⟨l₁, segments[i], l₂, segments[j], l₃, hsplit, hR⟩
  · rintro ⟨l₁, s₁, l₂, s₂, l₃, hsplit, hR⟩
    rw [overlapOf_eq_pairScan, hsplit]
    apply pairScan_sublist _ (List.sublist_append_right _ _)
    exact pairScan_cons_of_mem _ _ s₂ _
      (List.mem_append_right _ (List.mem_cons_self _ _)) hR

theorem overlap_true_iff_some_name (segments : List Segment) :
    overlapOf segments = true ↔
      ∃ n ∈ (segments.map Segment.name).dedup,
        overlapOf (segments.filter (fun s => decide (s.name = n))) = true := by
  constructor
  · intro h
    obtain ⟨l₁, s₁, l₂, s₂, l₃, hsplit, hR⟩ := (overlap_iff_exists_split _).1 h
    obtain ⟨hname, hend⟩ := (segClash_eq_true_iff _ _).1 hR
    have hmem : s₁ ∈ segments := by rw [hsplit]; simp
    refine ⟨s₁.name, List.mem_dedup.2 (List.mem_map.2 ⟨s₁, hmem, rfl⟩), ?_⟩
    have hfilter : (l₁ ++ s₁ :: (l₂ ++ s₂ :: l₃)).filter
        (fun s => decide (s.name = s₁.name)) =
      l₁.filter (fun s => decide (s.name = s₁.name)) ++ s₁ ::
        (l₂.filter (fun s => decide (s.name = s₁.name)) ++ s₂ ::
          l₃.filter (fun s => decide (s.name = s₁.name))) := by
      simp [List.filter_append, List.filter_cons, hname.symm]
    rw [overlapOf_eq_pairScan, hsplit, hfilter]
    apply pairScan_sublist _ (List.sublist_append_right _ _)
    exact pairScan_cons_of_mem _ _ s₂ _
      (List.mem_append_right _ (List.mem_cons_self _ _)) hR
  · rintro ⟨n, _, hov⟩
    rw [overlapOf_eq_pairScan] at hov ⊢
    exact pairScan_sublist _ (List.filter_sublist _) hov

/-- C6: the overall overlap result is the disjunction, over the distinct
names of the sequence, of running the validator on just that single-name
subsequence in original order. -/
theorem overlap_is_disjunction_over_names (segments : List Segment) :
    overlapOf segments =
      ((segments.map Segment.name).dedup.any fun n =>
        overlapOf (segments.filter (fun s => decide (s.name = n)))) := by
  rw [Bool.eq_iff_iff]
  constructor
  · intro h
    obtain ⟨n, hmem, hov⟩ := (overlap_true_iff_some_name segments).1 h
    exact List.any_eq_true.2 ⟨n, hmem, hov⟩
  · intro h
    obtain ⟨n, hmem, hov⟩ := List.any_eq_true.1 h
    exact (overlap_true_iff_some_name segments).2 ⟨n, hmem, hov⟩

/-! ### Flag independence (C9) -/

/-- The fields of a segment the validator can read: name, start and end. -/
def segKey (s : Segment) : String × Int × Int := (s.name, s.start, s.«end»)

/-- The clash relation expressed on key triples. -/
def keyClash (a b : String × Int × Int) : Bool :=
  decide (a.1 = b.1) && decide (a.2.2 ≥ b.2.1)

theorem pairScan_map_segKey (l : List Segment) :
    pairScan segClash l = pairScan keyClash (l.map segKey) := by
  induction l with
  | nil => rfl
  | cons s rest ih =>
    simp only [pairScan, List.map_cons, ih, any_map_general]
    rfl

/-- C9: the overlap result is independent of the boolean flag of every segment;
sequences agreeing on name, start and end at every position give the same
result. -/
theorem overlap_independent_of_flag (l₁ l₂ : List Segment)
    (h : l₁.map segKey = l₂.map segKey) :
    overlapOf l₁ = overlapOf l₂ := by
  rw [overlapOf_eq_pairScan, overlapOf_eq_pairScan, pairScan_map_segKey,
    pairScan_map_segKey, h]

/-- C9 witness: two sequences differing only in the flag at each position. -/
theorem overlap_independent_of_flag_witness :
    ([⟨"a", 0, 5, false⟩, ⟨"a", 7, 9, false⟩] : List Segment).map segKey =
      ([⟨"a", 0, 5, true⟩, ⟨"a", 7, 9, true⟩] : List Segment).map segKey ∧
    overlapOf [⟨"a", 0, 5, false⟩, ⟨"a", 7, 9, false⟩] =
      overlapOf [⟨"a", 0, 5, true⟩, ⟨"a", 7, 9, true⟩] :=
  ⟨by decide,
   overlap_independent_of_flag [⟨"a", 0, 5, false⟩, ⟨"a", 7, 9, false⟩]
     [⟨"a", 0, 5, true⟩, ⟨"a", 7, 9, true⟩] (by decide)⟩

end SegDialog
